import Mathlib

set_option maxHeartbeats 1000000

/-!
Verification of the JSON serializer in src/ser/mod.rs.

The serializer writes JSON text into a fixed-capacity byte buffer
(heapless Vec u8 B).  Bytes are modelled as Nat (each produced byte is a
literal below 256 or a decimal digit byte), buffers as List Nat, and the
fallible buffer operations return Except over the error enum of the source.
-/

/-- Embeds enum Error of src/ser/mod.rs: BufferFull (buffer is full),
FormatError (an fmt error surfaced by the float path) and the hidden
extensibility variant. -/
inductive Error where
  | BufferFull
  | FormatError
  | Extensible
deriving DecidableEq, Repr

/-- Embeds the alias type Result T = core result with Error. -/
abbrev SerResult (α : Type) := Except Error α

/-- Embeds heapless Vec push, as used through the buf field of Serializer:
appends one byte when it fits, otherwise fails with BufferFull leaving the
buffer unchanged (the all-or-nothing contract of the bounded buffer). -/
def push (cap : Nat) (buf : List Nat) (b : Nat) : SerResult (List Nat) :=
  if buf.length + 1 ≤ cap then Except.ok (buf ++ [b]) else Except.error Error.BufferFull

/-- Embeds heapless Vec extend_from_slice: appends a whole byte slice when
it fits, otherwise fails with BufferFull leaving the buffer unchanged. -/
def extend_from_slice (cap : Nat) (buf : List Nat) (bs : List Nat) : SerResult (List Nat) :=
  if buf.length + bs.length ≤ cap then Except.ok (buf ++ bs) else Except.error Error.BufferFull

/-- Embeds the digit loop shared by serialize_unsigned and serialize_signed
in src/ser/mod.rs (lines 68-122): starting from the last position of the
scratch array, each iteration stores v mod 10 + 48 (the byte b 0 is 48) and
divides v by 10, stopping once the quotient is zero.  The filled suffix of
the scratch, read left to right, is exactly this list. -/
def digitLoop (v : Nat) : List Nat :=
  if h : v / 10 = 0 then [v % 10 + 48]
  else digitLoop (v / 10) ++ [v % 10 + 48]
termination_by v
decreasing_by
  have hv : v ≠ 0 := by
    intro h0
    rw [h0] at h
    simp at h
  exact Nat.div_lt_self (Nat.pos_of_ne_zero hv) (by omega)

/-- Reads a list of decimal digit bytes back as the number it denotes
(most significant digit first).  Used to state that the emitted digits are
the canonical base-10 representation. -/
def decodeDec (l : List Nat) : Nat :=
  l.foldl (fun a d => 10 * a + (d - 48)) 0

lemma decodeDec_concat (l : List Nat) (d : Nat) :
    decodeDec (l ++ [d]) = 10 * decodeDec l + (d - 48) := by
  simp [decodeDec, List.foldl_append]

lemma digitLoop_ne_nil (v : Nat) : digitLoop v ≠ [] := by
  rw [digitLoop]
  split <;> simp

lemma decodeDec_digitLoop (v : Nat) : decodeDec (digitLoop v) = v := by
  induction v using digitLoop.induct with
  | case1 v h =>
    have hv : v < 10 := by omega
    rw [digitLoop, dif_pos h]
    simp [decodeDec, Nat.mod_eq_of_lt hv]
  | case2 v h ih =>
    rw [digitLoop, dif_neg h, decodeDec_concat, ih]
    omega

lemma digitLoop_mem (v : Nat) : ∀ d ∈ digitLoop v, 48 ≤ d ∧ d ≤ 57 := by
  induction v using digitLoop.induct with
  | case1 v h =>
    rw [digitLoop, dif_pos h]
    intro d hd
    simp at hd
    have := Nat.mod_lt v (show 0 < 10 by omega)
    omega
  | case2 v h ih =>
    rw [digitLoop, dif_neg h]
    intro d hd
    rcases List.mem_append.mp hd with h1 | h1
    · exact ih d h1
    · simp at h1
      have := Nat.mod_lt v (show 0 < 10 by omega)
      omega

lemma digitLoop_head (v : Nat) (hv : 0 < v) :
    ∀ d, (digitLoop v).head? = some d → 49 ≤ d := by
  induction v using digitLoop.induct with
  | case1 v h =>
    intro d hd
    rw [digitLoop, dif_pos h] at hd
    simp at hd
    have hlt : v < 10 := by omega
    rw [Nat.mod_eq_of_lt hlt] at hd
    omega
  | case2 v h ih =>
    intro d hd
    rw [digitLoop, dif_neg h] at hd
    rw [List.head?_append_of_ne_nil _ (digitLoop_ne_nil _)] at hd
    exact ih (Nat.pos_of_ne_zero h) d hd

lemma digitLoop_zero : digitLoop 0 = [48] := by
  rw [digitLoop]
  simp

lemma digitLoop_length_le (v k : Nat) (hk : 1 ≤ k) (h : v < 10 ^ k) :
    (digitLoop v).length ≤ k := by
  induction v using digitLoop.induct generalizing k with
  | case1 v hv =>
    rw [digitLoop, dif_pos hv]
    simpa using hk
  | case2 v hv ih =>
    rw [digitLoop, dif_neg hv]
    have h10 : 10 ≤ v := by
      rcases Nat.lt_or_ge v 10 with hlt | hge
    -- if v < 10 the quotient is zero, contradicting the loop guard
      · exact absurd (Nat.div_eq_of_lt hlt) hv
      · exact hge
    have hk2 : 2 ≤ k := by
      by_contra hcon
      have hk1 : k = 1 := by omega
      rw [hk1] at h
      simp at h
      omega
    have hdiv : v / 10 < 10 ^ (k - 1) := by
      rw [Nat.div_lt_iff_lt_mul (by omega : 0 < 10)]
      calc v < 10 ^ k := h
        _ = 10 ^ (k - 1) * 10 := by
          rw [← Nat.pow_succ]
          congr 1
          omega
    have := ih (k - 1) (by omega) hdiv
    simp only [List.length_append, List.length_cons, List.length_nil]
    omega

/-- Embeds the byte list appended by serialize_signed for width w
(src/ser/mod.rs lines 90-122): the three-way branch computes the sign flag
and the unsigned magnitude, with the minimum value of the signed type sent
to max_unsigned + 1 = 2 pow (w-1); the loop then extracts the digits of the
magnitude, and a leading minus byte (45) is placed when the sign flag is
set. -/
def signedBytes (w : Nat) (v : Int) : List Nat :=
  let sv : Bool × Nat :=
    if v = -(2 ^ (w - 1) : Int) then (true, 2 ^ (w - 1))
    else if v < 0 then (true, (-v).toNat)
    else (false, v.toNat)
  (if sv.1 then [45] else []) ++ digitLoop sv.2

/-- Embeds serialize_unsigned of src/ser/mod.rs (lines 68-88): the loop
fills an N byte scratch from the last position backward with the digits of
v and the filled suffix buf[i..] is appended; for every in-range v the
digit count is at most N (theorem digitLoop_length_le applied at each
width), so the index i never leaves the scratch. -/
def serialize_unsigned (cap N : Nat) (buf : List Nat) (v : Nat) : SerResult (List Nat) :=
  extend_from_slice cap buf (digitLoop v)

/-- Embeds serialize_signed of src/ser/mod.rs (lines 90-122) for width w:
the appended suffix is the optional minus byte followed by the digits of
the magnitude (signedBytes); the N byte scratch bounds the digit count
plus sign for in-range values. -/
def serialize_signed (cap N w : Nat) (buf : List Nat) (v : Int) : SerResult (List Nat) :=
  extend_from_slice cap buf (signedBytes w v)

/-- serialize_u8 (src/ser/mod.rs line 177): scratch of 3 bytes. -/
def serialize_u8 (cap : Nat) (buf : List Nat) (v : Nat) : SerResult (List Nat) :=
  serialize_unsigned cap 3 buf v

/-- serialize_u16 (line 182): scratch of 5 bytes. -/
def serialize_u16 (cap : Nat) (buf : List Nat) (v : Nat) : SerResult (List Nat) :=
  serialize_unsigned cap 5 buf v

/-- serialize_u32 (line 187): scratch of 10 bytes. -/
def serialize_u32 (cap : Nat) (buf : List Nat) (v : Nat) : SerResult (List Nat) :=
  serialize_unsigned cap 10 buf v

/-- serialize_u64 (line 192): scratch of 20 bytes. -/
def serialize_u64 (cap : Nat) (buf : List Nat) (v : Nat) : SerResult (List Nat) :=
  serialize_unsigned cap 20 buf v

/-- serialize_i8 (line 157): scratch of 4 bytes, width 8. -/
def serialize_i8 (cap : Nat) (buf : List Nat) (v : Int) : SerResult (List Nat) :=
  serialize_signed cap 4 8 buf v

/-- serialize_i16 (line 162): scratch of 6 bytes, width 16. -/
def serialize_i16 (cap : Nat) (buf : List Nat) (v : Int) : SerResult (List Nat) :=
  serialize_signed cap 6 16 buf v

/-- serialize_i32 (line 167): scratch of 11 bytes, width 32. -/
def serialize_i32 (cap : Nat) (buf : List Nat) (v : Int) : SerResult (List Nat) :=
  serialize_signed cap 11 32 buf v

/-- serialize_i64 (line 172): scratch of 20 bytes, width 64. -/
def serialize_i64 (cap : Nat) (buf : List Nat) (v : Int) : SerResult (List Nat) :=
  serialize_signed cap 20 64 buf v

/-- Embeds serialize_float (src/ser/mod.rs lines 124-131): the value is
first formatted by the external core fmt formatter into a String scratch of
N bytes; the write fails with a fmt error, surfaced as FormatError, exactly
when the formatted text does not fit the scratch, and otherwise the text is
appended via extend_from_slice.  The float value is represented here by its
formatted text s, since the formatter is external to this crate. -/
def serialize_float (cap N : Nat) (buf : List Nat) (s : List Nat) : SerResult (List Nat) :=
  if s.length ≤ N then extend_from_slice cap buf s else Except.error Error.FormatError

/-- Embeds serialize_bool (lines 147-155): the literal true or false. -/
def serialize_bool (cap : Nat) (buf : List Nat) (v : Bool) : SerResult (List Nat) :=
  if v then extend_from_slice cap buf [116, 114, 117, 101]
  else extend_from_slice cap buf [102, 97, 108, 115, 101]

/-- Embeds serialize_str (lines 212-217): push a quote byte, append the raw
bytes of the string exactly as given, push a quote byte.  No escaping. -/
def serialize_str (cap : Nat) (buf : List Nat) (s : List Nat) : SerResult (List Nat) := do
  let b1 ← push cap buf 34
  let b2 ← extend_from_slice cap b1 s
  push cap b2 34

/-- Embeds serialize_none (lines 223-226): the literal null. -/
def serialize_none (cap : Nat) (buf : List Nat) : SerResult (List Nat) :=
  extend_from_slice cap buf [110, 117, 108, 108]

/-- The closed set of value shapes the serializer supports without
aborting: the serde data model restricted to the methods src/ser/mod.rs
implements (bool, the four signed and four unsigned integer widths, the
two float widths, char, str, option, unit enum variants, sequences and
tuples, structs).  Machine integers are Nat or Int with range hypotheses
stated at the theorems; a char carries its UTF-8 encoding (produced by
encode_utf8 in the source); a float carries the text produced by the
external core fmt formatter; strings, labels and field names carry their
raw bytes. -/
inductive JsonValue where
  | jBool (b : Bool)
  | jI8 (v : Int)
  | jI16 (v : Int)
  | jI32 (v : Int)
  | jI64 (v : Int)
  | jU8 (v : Nat)
  | jU16 (v : Nat)
  | jU32 (v : Nat)
  | jU64 (v : Nat)
  | jF32 (s : List Nat)
  | jF64 (s : List Nat)
  | jChar (u : List Nat)
  | jStr (s : List Nat)
  | jNone
  | jSome (v : JsonValue)
  | jUnitVariant (label : List Nat)
  | jSeq (es : List JsonValue)
  | jStruct (fs : List (List Nat × JsonValue))

mutual

/-- Embeds the dispatch of the ser Serializer impl for Serializer
(src/ser/mod.rs lines 133-330): each scalar shape calls the corresponding
serialize method; serialize_some delegates to the wrapped value with no
marker; serialize_char goes through the str path on the UTF-8 encoding;
serialize_unit_variant goes through the str path on the label;
serialize_seq pushes the opening bracket before the element encoder runs
and serialize_struct pushes the opening brace before the field encoder
runs. -/
def serializeValue (cap : Nat) (buf : List Nat) : JsonValue → SerResult (List Nat)
  | .jBool b => serialize_bool cap buf b
  | .jI8 v => serialize_i8 cap buf v
  | .jI16 v => serialize_i16 cap buf v
  | .jI32 v => serialize_i32 cap buf v
  | .jI64 v => serialize_i64 cap buf v
  | .jU8 v => serialize_u8 cap buf v
  | .jU16 v => serialize_u16 cap buf v
  | .jU32 v => serialize_u32 cap buf v
  | .jU64 v => serialize_u64 cap buf v
  | .jF32 s => serialize_float cap 41 buf s
  | .jF64 s => serialize_float cap 41 buf s
  | .jChar u => serialize_str cap buf u
  | .jStr s => serialize_str cap buf s
  | .jNone => serialize_none cap buf
  | .jSome v => serializeValue cap buf v
  | .jUnitVariant l => serialize_str cap buf l
  | .jSeq es => do
      let b ← push cap buf 91
      serializeSeqElems cap b true es
  | .jStruct fs => do
      let b ← push cap buf 123
      serializeStructFields cap b true fs

/-- Modelled from the spec: the SerializeSeq implementation lives in
src/ser/seq.rs, which is not among the sources; spec section 4.3 gives its
protocol.  serialize_element writes a comma unless this is the first
element, then recursively invokes the Serializer on the element; end
writes the closing bracket. -/
def serializeSeqElems (cap : Nat) (buf : List Nat) (first : Bool) :
    List JsonValue → SerResult (List Nat)
  | [] => push cap buf 93
  | e :: es => do
      let b1 ← if first then Except.ok buf else push cap buf 44
      let b2 ← serializeValue cap b1 e
      serializeSeqElems cap b2 false es

/-- Modelled from the spec: the SerializeStruct implementation lives in
src/ser/struct_.rs, which is not among the sources; spec section 4.4 gives
its protocol.  serialize_field writes a comma unless this is the first
field, then the field name as a plain JSON string (the unescaped str path),
then a colon, then recursively invokes the Serializer on the value; end
writes the closing brace. -/
def serializeStructFields (cap : Nat) (buf : List Nat) (first : Bool) :
    List (List Nat × JsonValue) → SerResult (List Nat)
  | [] => push cap buf 125
  | (n, v) :: fs => do
      let b1 ← if first then Except.ok buf else push cap buf 44
      let b2 ← serialize_str cap b1 n
      let b3 ← push cap b2 58
      let b4 ← serializeValue cap b3 v
      serializeStructFields cap b4 false fs

end

mutual

/-- The exact byte sequence a value serializes to when nothing overflows:
each case lists the bytes the corresponding serializer case appends, in
order.  Used to state capacity and shape properties of serializeValue. -/
def encode : JsonValue → List Nat
  | .jBool b => if b then [116, 114, 117, 101] else [102, 97, 108, 115, 101]
  | .jI8 v => signedBytes 8 v
  | .jI16 v => signedBytes 16 v
  | .jI32 v => signedBytes 32 v
  | .jI64 v => signedBytes 64 v
  | .jU8 v => digitLoop v
  | .jU16 v => digitLoop v
  | .jU32 v => digitLoop v
  | .jU64 v => digitLoop v
  | .jF32 s => s
  | .jF64 s => s
  | .jChar u => 34 :: (u ++ [34])
  | .jStr s => 34 :: (s ++ [34])
  | .jNone => [110, 117, 108, 108]
  | .jSome v => encode v
  | .jUnitVariant l => 34 :: (l ++ [34])
  | .jSeq es => 91 :: encodeSeqTail true es
  | .jStruct fs => 123 :: encodeStructTail true fs

/-- Bytes appended by the element loop of a sequence, including the
closing bracket: a comma before every element except the first. -/
def encodeSeqTail (first : Bool) : List JsonValue → List Nat
  | [] => [93]
  | e :: es => (if first then [] else [44]) ++ (encode e ++ encodeSeqTail false es)

/-- Bytes appended by the field loop of a struct, including the closing
brace: a comma before every field except the first, then the quoted name,
a colon and the value. -/
def encodeStructTail (first : Bool) : List (List Nat × JsonValue) → List Nat
  | [] => [125]
  | (n, v) :: fs =>
      (if first then [] else [44]) ++
        ((34 :: (n ++ [34])) ++ (58 :: (encode v ++ encodeStructTail false fs)))

end

mutual

/-- Every float inside the value has a formatted text that fits the
41 byte scratch of serialize_float, so the fmt error path is not taken. -/
def floatsFit : JsonValue → Bool
  | .jF32 s => s.length ≤ 41
  | .jF64 s => s.length ≤ 41
  | .jSome v => floatsFit v
  | .jSeq es => floatsFitList es
  | .jStruct fs => floatsFitFields fs
  | _ => true

/-- floatsFit over every element of a sequence. -/
def floatsFitList : List JsonValue → Bool
  | [] => true
  | e :: es => floatsFit e && floatsFitList es

/-- floatsFit over every field value of a struct. -/
def floatsFitFields : List (List Nat × JsonValue) → Bool
  | [] => true
  | (_, v) :: fs => floatsFit v && floatsFitFields fs

end

/-- Embeds to_vec (src/ser/mod.rs lines 344-352): build a fresh Serializer
with an empty buffer of capacity cap, serialize the value into it, and
return the buffer bytes. -/
def to_vec (cap : Nat) (v : JsonValue) : SerResult (List Nat) :=
  serializeValue cap [] v

/-- Embeds to_string (src/ser/mod.rs lines 333-341): build a fresh
Serializer with an empty buffer of capacity cap, serialize the value into
it, and return the buffer viewed as a string through the unchecked UTF-8
conversion, which keeps the bytes unchanged. -/
def to_string (cap : Nat) (v : JsonValue) : SerResult (List Nat) :=
  match serializeValue cap [] v with
  | Except.ok buf => Except.ok buf
  | Except.error e => Except.error e

/-- A serialization step appends exactly the byte list d when d fits the
remaining capacity, and fails with BufferFull leaving no other outcome
otherwise.  This is the all-or-nothing discipline every write path of the
serializer follows. -/
def Emits (cap : Nat) (f : List Nat → SerResult (List Nat)) (d : List Nat) : Prop :=
  ∀ buf, buf.length ≤ cap → f buf =
    if buf.length + d.length ≤ cap then Except.ok (buf ++ d) else Except.error Error.BufferFull

lemma emits_push (cap : Nat) (b : Nat) : Emits cap (fun buf => push cap buf b) [b] := by
  intro buf _
  simp [push]

lemma emits_extend (cap : Nat) (bs : List Nat) :
    Emits cap (fun buf => extend_from_slice cap buf bs) bs := by
  intro buf _
  rfl

lemma emits_ok (cap : Nat) : Emits cap (fun buf => Except.ok buf) [] := by
  intro buf hbuf
  simp only [List.length_nil, Nat.add_zero, List.append_nil, if_pos hbuf]

lemma emits_bind {cap : Nat} {f g : List Nat → SerResult (List Nat)} {d1 d2 : List Nat}
    (h1 : Emits cap f d1) (h2 : Emits cap g d2) :
    Emits cap (fun buf => f buf >>= g) (d1 ++ d2) := by
  intro buf hbuf
  simp only
  rw [h1 buf hbuf]
  by_cases hle : buf.length + d1.length ≤ cap
  · rw [if_pos hle]
    show g (buf ++ d1) = _
    rw [h2 (buf ++ d1) (by simp only [List.length_append]; omega)]
    simp only [List.length_append, List.append_assoc, Nat.add_assoc]
  · rw [if_neg hle]
    show Except.error Error.BufferFull = _
    rw [if_neg (by simp only [List.length_append]; omega)]

lemma emits_serialize_str (cap : Nat) (s : List Nat) :
    Emits cap (fun buf => serialize_str cap buf s) (34 :: (s ++ [34])) := by
  simp only [serialize_str]
  exact emits_bind (emits_push cap 34) (emits_bind (emits_extend cap s) (emits_push cap 34))

mutual

/-- Master characterization: when every float text fits the 41 byte
scratch, serializing a value appends exactly encode v when it fits the
capacity, and fails with BufferFull otherwise. -/
theorem serializeValue_emits (cap : Nat) (v : JsonValue) (hf : floatsFit v = true) :
    Emits cap (fun buf => serializeValue cap buf v) (encode v) := by
  cases v with
  | jBool b =>
    cases b <;> simp only [serializeValue, encode, serialize_bool, if_true, if_false] <;>
      exact emits_extend _ _
  | jI8 v =>
    simp only [serializeValue, encode, serialize_i8, serialize_signed]
    exact emits_extend _ _
  | jI16 v =>
    simp only [serializeValue, encode, serialize_i16, serialize_signed]
    exact emits_extend _ _
  | jI32 v =>
    simp only [serializeValue, encode, serialize_i32, serialize_signed]
    exact emits_extend _ _
  | jI64 v =>
    simp only [serializeValue, encode, serialize_i64, serialize_signed]
    exact emits_extend _ _
  | jU8 v =>
    simp only [serializeValue, encode, serialize_u8, serialize_unsigned]
    exact emits_extend _ _
  | jU16 v =>
    simp only [serializeValue, encode, serialize_u16, serialize_unsigned]
    exact emits_extend _ _
  | jU32 v =>
    simp only [serializeValue, encode, serialize_u32, serialize_unsigned]
    exact emits_extend _ _
  | jU64 v =>
    simp only [serializeValue, encode, serialize_u64, serialize_unsigned]
    exact emits_extend _ _
  | jF32 s =>
    simp only [floatsFit, decide_eq_true_eq] at hf
    simp only [serializeValue, encode, serialize_float, if_pos hf]
    exact emits_extend _ _
  | jF64 s =>
    simp only [floatsFit, decide_eq_true_eq] at hf
    simp only [serializeValue, encode, serialize_float, if_pos hf]
    exact emits_extend _ _
  | jChar u =>
    simp only [serializeValue, encode]
    exact emits_serialize_str cap u
  | jStr s =>
    simp only [serializeValue, encode]
    exact emits_serialize_str cap s
  | jNone =>
    simp only [serializeValue, encode, serialize_none]
    exact emits_extend _ _
  | jSome v =>
    simp only [floatsFit] at hf
    simp only [serializeValue, encode]
    exact serializeValue_emits cap v hf
  | jUnitVariant l =>
    simp only [serializeValue, encode]
    exact emits_serialize_str cap l
  | jSeq es =>
    simp only [floatsFit] at hf
    simp only [serializeValue, encode]
    exact emits_bind (emits_push cap 91) (serializeSeqElems_emits cap true es hf)
  | jStruct fs =>
    simp only [floatsFit] at hf
    simp only [serializeValue, encode]
    exact emits_bind (emits_push cap 123) (serializeStructFields_emits cap true fs hf)

/-- Master characterization for the element loop of a sequence. -/
theorem serializeSeqElems_emits (cap : Nat) (first : Bool) (es : List JsonValue)
    (hf : floatsFitList es = true) :
    Emits cap (fun buf => serializeSeqElems cap buf first es) (encodeSeqTail first es) := by
  cases es with
  | nil =>
    simp only [serializeSeqElems, encodeSeqTail]
    exact emits_push cap 93
  | cons e es =>
    simp only [floatsFitList, Bool.and_eq_true] at hf
    simp only [serializeSeqElems, encodeSeqTail]
    cases first with
    | true =>
      exact emits_bind (emits_ok cap)
        (emits_bind (serializeValue_emits cap e hf.1) (serializeSeqElems_emits cap false es hf.2))
    | false =>
      exact emits_bind (emits_push cap 44)
        (emits_bind (serializeValue_emits cap e hf.1) (serializeSeqElems_emits cap false es hf.2))

/-- Master characterization for the field loop of a struct. -/
theorem serializeStructFields_emits (cap : Nat) (first : Bool)
    (fs : List (List Nat × JsonValue)) (hf : floatsFitFields fs = true) :
    Emits cap (fun buf => serializeStructFields cap buf first fs) (encodeStructTail first fs) := by
  cases fs with
  | nil =>
    simp only [serializeStructFields, encodeStructTail]
    exact emits_push cap 125
  | cons f fs =>
    obtain ⟨n, v⟩ := f
    simp only [floatsFitFields, Bool.and_eq_true] at hf
    simp only [serializeStructFields, encodeStructTail]
    cases first with
    | true =>
      exact emits_bind (emits_ok cap)
        (emits_bind (emits_serialize_str cap n)
          (emits_bind (emits_push cap 58)
            (emits_bind (serializeValue_emits cap v hf.1)
              (serializeStructFields_emits cap false fs hf.2))))
    | false =>
      exact emits_bind (emits_push cap 44)
        (emits_bind (emits_serialize_str cap n)
          (emits_bind (emits_push cap 58)
            (emits_bind (serializeValue_emits cap v hf.1)
              (serializeStructFields_emits cap false fs hf.2))))

end

/-- Pointwise corollary of the master characterization. -/
theorem serializeValue_eq (cap : Nat) (buf : List Nat) (v : JsonValue)
    (hf : floatsFit v = true) (hbuf : buf.length ≤ cap) :
    serializeValue cap buf v =
      if buf.length + (encode v).length ≤ cap then Except.ok (buf ++ encode v)
      else Except.error Error.BufferFull :=
  serializeValue_emits cap v hf buf hbuf

/-- Every float text inside the value is nonempty, as is every text the
external formatter actually produces. -/
def floatsNonempty : JsonValue → Bool
  | .jF32 s => 1 ≤ s.length
  | .jF64 s => 1 ≤ s.length
  | .jSome v => floatsNonempty v
  | _ => true

lemma signedBytes_ne_nil (w : Nat) (v : Int) : signedBytes w v ≠ [] := by
  simp only [signedBytes]
  intro h
  rcases List.append_eq_nil.mp h with ⟨_, h2⟩
  exact digitLoop_ne_nil _ h2

/-- Every value with nonempty float texts serializes to at least one
byte. -/
theorem encode_ne_nil (v : JsonValue) (hne : floatsNonempty v = true) : encode v ≠ [] := by
  cases v with
  | jBool b => cases b <;> simp [encode]
  | jI8 v => simp only [encode]; exact signedBytes_ne_nil 8 v
  | jI16 v => simp only [encode]; exact signedBytes_ne_nil 16 v
  | jI32 v => simp only [encode]; exact signedBytes_ne_nil 32 v
  | jI64 v => simp only [encode]; exact signedBytes_ne_nil 64 v
  | jU8 v => simp only [encode]; exact digitLoop_ne_nil v
  | jU16 v => simp only [encode]; exact digitLoop_ne_nil v
  | jU32 v => simp only [encode]; exact digitLoop_ne_nil v
  | jU64 v => simp only [encode]; exact digitLoop_ne_nil v
  | jF32 s =>
    simp only [floatsNonempty, decide_eq_true_eq] at hne
    simp only [encode]
    intro h
    rw [h] at hne
    simp at hne
  | jF64 s =>
    simp only [floatsNonempty, decide_eq_true_eq] at hne
    simp only [encode]
    intro h
    rw [h] at hne
    simp at hne
  | jChar u => simp [encode]
  | jStr s => simp [encode]
  | jNone => simp [encode]
  | jSome v =>
    simp only [floatsNonempty] at hne
    simp only [encode]
    exact encode_ne_nil v hne
  | jUnitVariant l => simp [encode]
  | jSeq es => simp [encode]
  | jStruct fs => simp [encode]

/-- Composite of the digit-count bound: v below a bound that is at most
10 pow k has at most k digits. -/
lemma digitLoop_length_le_of_lt (v B k : Nat) (hk : 1 ≤ k) (hB : B ≤ 10 ^ k) (hv : v < B) :
    (digitLoop v).length ≤ k :=
  digitLoop_length_le v k hk (lt_of_lt_of_le hv hB)

/-- C1: for every supported unsigned width (8, 16, 32, 64 bits, with
scratch sizes 3, 5, 10, 20) and every representable value, the unsigned
serializer emits exactly the canonical base-10 decimal text: the emitted
bytes are the digit loop output, whose digits decode back to the value,
contain no leading zero (the value 0 is the single digit byte 48), are all
decimal digit bytes, and number at most the scratch size, so only the
filled suffix of the scratch is appended. -/
theorem unsigned_serialization_canonical (w N : Nat)
    (hwN : (w, N) ∈ [(8, 3), (16, 5), (32, 10), (64, 20)]) (v : Nat) (hv : v < 2 ^ w) :
    serialize_unsigned N N [] v = Except.ok (digitLoop v) ∧
    (digitLoop v).length ≤ N ∧
    decodeDec (digitLoop v) = v ∧
    (∀ d ∈ digitLoop v, 48 ≤ d ∧ d ≤ 57) ∧
    (v = 0 → digitLoop v = [48]) ∧
    (0 < v → ∀ d, (digitLoop v).head? = some d → 49 ≤ d) := by
  have hlen : (digitLoop v).length ≤ N := by
    simp only [List.mem_cons, List.not_mem_nil, or_false, Prod.mk.injEq] at hwN
    rcases hwN with ⟨hw, hN⟩ | ⟨hw, hN⟩ | ⟨hw, hN⟩ | ⟨hw, hN⟩ <;> subst hw <;> subst hN
    · exact digitLoop_length_le_of_lt v (2 ^ 8) 3 (by norm_num) (by norm_num) hv
    · exact digitLoop_length_le_of_lt v (2 ^ 16) 5 (by norm_num) (by norm_num) hv
    · exact digitLoop_length_le_of_lt v (2 ^ 32) 10 (by norm_num) (by norm_num) hv
    · exact digitLoop_length_le_of_lt v (2 ^ 64) 20 (by norm_num) (by norm_num) hv
  refine ⟨?_, hlen, decodeDec_digitLoop v, digitLoop_mem v,
    fun h0 => by rw [h0]; exact digitLoop_zero, fun hpos => digitLoop_head v hpos⟩
  simp only [serialize_unsigned, extend_from_slice, List.length_nil, Nat.zero_add,
    if_pos hlen, List.nil_append]

/-- C1 witness: width 8, maximal value 255, emitted digits 255. -/
theorem unsigned_serialization_canonical_witness :
    serialize_unsigned 3 3 [] 255 = Except.ok (digitLoop 255) ∧
    digitLoop 255 = [50, 53, 53] ∧ decodeDec (digitLoop 255) = 255 := by
  have h := unsigned_serialization_canonical 8 3 (by simp) 255 (by norm_num)
  refine ⟨h.1, ?_, h.2.2.1⟩
  simp [digitLoop]

lemma natAbs_pow_two (k : Nat) : ((2 : Int) ^ k).natAbs = 2 ^ k := by
  have h : ((2 : Int) ^ k) = ((2 ^ k : Nat) : Int) := by push_cast; ring
  rw [h, Int.natAbs_ofNat]

lemma natAbs_neg_pow (k : Nat) : (-(2 ^ k : Int)).natAbs = 2 ^ k := by
  rw [Int.natAbs_neg, natAbs_pow_two]

/-- The three-way branch of serialize_signed always yields the optional
minus byte followed by the digits of the absolute magnitude: the minimum
value branch produces max_unsigned + 1, which is exactly its absolute
magnitude. -/
lemma signedBytes_eq (w : Nat) (v : Int) :
    signedBytes w v = if v < 0 then 45 :: digitLoop v.natAbs else digitLoop v.natAbs := by
  by_cases hmin : v = -(2 ^ (w - 1) : Int)
  · subst hmin
    have hpow : (0 : Int) < 2 ^ (w - 1) := by positivity
    have hneg : (-(2 ^ (w - 1) : Int)) < 0 := by omega
    simp [signedBytes, hneg, natAbs_neg_pow, natAbs_pow_two]
  · by_cases hneg : v < 0
    · have h1 : (-v).toNat = v.natAbs := by omega
      simp [signedBytes, hmin, hneg, h1]
    · have h1 : v.toNat = v.natAbs := by omega
      simp [signedBytes, hmin, hneg, h1]

/-- C2: for every supported signed width (8, 16, 32, 64 bits, with scratch
sizes 4, 6, 11, 20) and every representable value, the signed serializer
emits an optional leading minus byte (45), present exactly when the value
is negative, followed by the canonical decimal digits of the absolute
magnitude; the minimum representable value goes through the magnitude
max_unsigned + 1 = 2 pow (w-1); the emitted bytes fit the scratch. -/
theorem signed_serialization_canonical (w N : Nat)
    (hwN : (w, N) ∈ [(8, 4), (16, 6), (32, 11), (64, 20)]) (v : Int)
    (hlo : -(2 ^ (w - 1) : Int) ≤ v) (hhi : v < 2 ^ (w - 1)) :
    serialize_signed N N w [] v =
      Except.ok (if v < 0 then 45 :: digitLoop v.natAbs else digitLoop v.natAbs) ∧
    (v = -(2 ^ (w - 1) : Int) → signedBytes w v = 45 :: digitLoop (2 ^ (w - 1))) ∧
    decodeDec (digitLoop v.natAbs) = v.natAbs ∧
    (∀ d ∈ digitLoop v.natAbs, 48 ≤ d ∧ d ≤ 57) ∧
    (v ≠ 0 → ∀ d, (digitLoop v.natAbs).head? = some d → 49 ≤ d) ∧
    (signedBytes w v).length ≤ N := by
  have hsb := signedBytes_eq w v
  have hlen : (signedBytes w v).length ≤ N := by
    rw [hsb]
    simp only [List.mem_cons, List.not_mem_nil, or_false, Prod.mk.injEq] at hwN
    rcases hwN with ⟨hw, hN⟩ | ⟨hw, hN⟩ | ⟨hw, hN⟩ | ⟨hw, hN⟩ <;> subst hw <;> subst hN
    · have habs : v.natAbs ≤ 2 ^ 7 := by norm_num at hlo hhi ⊢; omega
      have hdig : (digitLoop v.natAbs).length ≤ 3 :=
        digitLoop_length_le_of_lt v.natAbs (2 ^ 7 + 1) 3 (by norm_num) (by norm_num) (by omega)
      by_cases hneg : v < 0 <;> simp [hneg] <;> omega
    · have habs : v.natAbs ≤ 2 ^ 15 := by norm_num at hlo hhi ⊢; omega
      have hdig : (digitLoop v.natAbs).length ≤ 5 :=
        digitLoop_length_le_of_lt v.natAbs (2 ^ 15 + 1) 5 (by norm_num) (by norm_num) (by omega)
      by_cases hneg : v < 0 <;> simp [hneg] <;> omega
    · have habs : v.natAbs ≤ 2 ^ 31 := by norm_num at hlo hhi ⊢; omega
      have hdig : (digitLoop v.natAbs).length ≤ 10 :=
        digitLoop_length_le_of_lt v.natAbs (2 ^ 31 + 1) 10 (by norm_num) (by norm_num) (by omega)
      by_cases hneg : v < 0 <;> simp [hneg] <;> omega
    · have habs : v.natAbs ≤ 2 ^ 63 := by norm_num at hlo hhi ⊢; omega
      have hdig : (digitLoop v.natAbs).length ≤ 19 :=
        digitLoop_length_le_of_lt v.natAbs (2 ^ 63 + 1) 19 (by norm_num) (by norm_num) (by omega)
      by_cases hneg : v < 0 <;> simp [hneg] <;> omega
  refine ⟨?_, ?_, decodeDec_digitLoop v.natAbs, digitLoop_mem v.natAbs, ?_, hlen⟩
  · rw [show serialize_signed N N w [] v = extend_from_slice N [] (signedBytes w v) from rfl]
    rw [extend_from_slice]
    simp only [List.length_nil, Nat.zero_add, if_pos hlen, List.nil_append]
    rw [hsb]
  · intro hmin
    rw [hsb]
    have hpow : (0 : Int) < 2 ^ (w - 1) := by positivity
    have hneg : v < 0 := by omega
    rw [if_pos hneg, hmin, natAbs_neg_pow]
  · intro hv0
    exact digitLoop_head v.natAbs (by omega)

/-- C2 witness: the 8-bit minimum -128 serializes to the bytes of -128,
through the magnitude 2 pow 7 = 128. -/
theorem signed_serialization_canonical_witness :
    serialize_signed 4 4 8 [] (-128) = Except.ok [45, 49, 50, 56] ∧
    signedBytes 8 (-128) = 45 :: digitLoop (2 ^ 7) := by
  have h := signed_serialization_canonical 8 4 (by simp) (-128) (by norm_num) (by norm_num)
  constructor
  · have h1 := h.1
    rw [if_pos (by norm_num : (-128 : Int) < 0)] at h1
    rw [h1]
    simp [digitLoop]
  · exact h.2.1 (by norm_num)

/-- C3: whenever the value has an encoded text (its float texts fit their
scratch and are nonempty, as the external formatter guarantees), a
capacity exactly equal to the length of that text succeeds and returns
exactly that text, while a capacity one byte smaller fails with BufferFull
and returns no output. -/
theorem capacity_exact_boundary (v : JsonValue) (hf : floatsFit v = true)
    (hne : floatsNonempty v = true) :
    to_vec (encode v).length v = Except.ok (encode v) ∧
    to_vec ((encode v).length - 1) v = Except.error Error.BufferFull := by
  constructor
  · have h := serializeValue_emits (encode v).length v hf [] (by simp)
    simpa [to_vec] using h
  · have hL : 1 ≤ (encode v).length := List.length_pos.mpr (encode_ne_nil v hne)
    have h := serializeValue_emits ((encode v).length - 1) v hf [] (by simp)
    rw [if_neg (by simp only [List.length_nil, Nat.zero_add]; omega)] at h
    exact h

/-- C3 witness: the boolean true needs 4 bytes; capacity 4 succeeds with
the literal true and capacity 3 fails with BufferFull. -/
theorem capacity_exact_boundary_witness :
    to_vec 4 (.jBool true) = Except.ok [116, 114, 117, 101] ∧
    to_vec 3 (.jBool true) = Except.error Error.BufferFull := by
  have h := capacity_exact_boundary (.jBool true) (by simp [floatsFit]) (by simp [floatsNonempty])
  have he : encode (JsonValue.jBool true) = [116, 114, 117, 101] := by simp [encode]
  constructor
  · have h1 := h.1
    rw [he] at h1
    simpa using h1
  · have h2 := h.2
    rw [he] at h2
    simpa using h2

/-- C4 amended: provided every float text inside the value fits the 41
byte float scratch, every run of the byte entry point either returns the
encoded bytes or fails with BufferFull, and no other error is reachable;
without that proviso the float path can surface FormatError (see the
counterexample), so value content does influence the error in exactly that
one case. -/
theorem runtime_failure_buffer_full (v : JsonValue) (cap : Nat) (hf : floatsFit v = true) :
    to_vec cap v = Except.ok (encode v) ∨ to_vec cap v = Except.error Error.BufferFull := by
  have h := serializeValue_emits cap v hf [] (by simp)
  by_cases hle : ([] : List Nat).length + (encode v).length ≤ cap
  · left
    rw [if_pos hle] at h
    simpa [to_vec] using h
  · right
    rw [if_neg hle] at h
    exact h

/-- C4 witness: the boolean true at capacity 0 hits the BufferFull arm. -/
theorem runtime_failure_buffer_full_witness :
    to_vec 0 (.jBool true) = Except.ok (encode (.jBool true)) ∨
    to_vec 0 (.jBool true) = Except.error Error.BufferFull :=
  runtime_failure_buffer_full (.jBool true) 0 (by simp [floatsFit])

/-- C4 counterexample: the f64 value 1e41 is formatted by the external
formatter (which never uses exponent notation) as the digit 1 followed by
41 zero digits, 42 bytes in all, which overflows the 41 byte float
scratch: even with ample output capacity the serializer fails with
FormatError rather than BufferFull, refuting the claim that the capacity
error is the only reachable runtime failure. -/
theorem float_format_failure_counterexample :
    to_vec 100 (.jF64 (49 :: List.replicate 41 48)) = Except.error Error.FormatError ∧
    Error.FormatError ≠ Error.BufferFull := by
  constructor
  · rw [to_vec]
    simp [serializeValue, serialize_float]
  · decide

/-- C5: string serialization pushes one opening quote byte (34), appends
the raw bytes of the string completely unmodified, and pushes one closing
quote byte; no quote, backslash or control byte of the input is ever
escaped or altered. -/
theorem str_serialization_verbatim (cap : Nat) (buf s : List Nat)
    (h : buf.length + s.length + 2 ≤ cap) :
    serialize_str cap buf s = Except.ok (buf ++ 34 :: (s ++ [34])) := by
  have he := emits_serialize_str cap s buf (by omega)
  rw [if_pos (by simp only [List.length_cons, List.length_append, List.length_nil]; omega)] at he
  exact he

/-- C5 witness: a string holding a quote byte, a backslash byte and a
control byte is copied verbatim between the quotes. -/
theorem str_serialization_verbatim_witness :
    serialize_str 10 [] [34, 92, 10] = Except.ok [34, 34, 92, 10, 34] := by
  have h := str_serialization_verbatim 10 [] [34, 92, 10] (by simp)
  simpa using h

/-- C6: an absent optional serializes to exactly the literal null (bytes
110 117 108 108); a present optional serializes to exactly the encoding of
the wrapped value with no wrapping marker; a struct whose only field is an
absent optional is emitted as the quoted field name, a colon and null, so
the field is never omitted. -/
theorem option_serialization (cap : Nat) (buf : List Nat) (v : JsonValue) (name : List Nat)
    (hn : buf.length + 4 ≤ cap) (hs : name.length + 9 ≤ cap) :
    serializeValue cap buf (.jSome v) = serializeValue cap buf v ∧
    serializeValue cap buf .jNone = Except.ok (buf ++ [110, 117, 108, 108]) ∧
    to_vec cap (.jStruct [(name, .jNone)]) =
      Except.ok ([123, 34] ++ name ++ [34, 58, 110, 117, 108, 108, 125]) := by
  refine ⟨by simp [serializeValue], ?_, ?_⟩
  · simp only [serializeValue, serialize_none, extend_from_slice]
    rw [if_pos (by simp only [List.length_cons, List.length_nil]; omega)]
  · have hf : floatsFit (.jStruct [(name, .jNone)]) = true := by
      simp [floatsFit, floatsFitFields]
    have h := serializeValue_emits cap (.jStruct [(name, .jNone)]) hf [] (by simp)
    have henc : encode (.jStruct [(name, .jNone)]) =
        [123, 34] ++ name ++ [34, 58, 110, 117, 108, 108, 125] := by
      simp [encode, encodeStructTail]
    rw [henc] at h
    rw [if_pos (by simp only [List.length_nil, Nat.zero_add, List.length_append,
      List.length_cons]; omega)] at h
    simpa [to_vec] using h

/-- C6 witness: a struct with one absent optional field named description
serializes to the quoted name, a colon and null inside braces. -/
theorem option_serialization_witness :
    serializeValue 30 [] (.jSome (.jBool true)) = serializeValue 30 [] (.jBool true) ∧
    serializeValue 30 [] .jNone = Except.ok [110, 117, 108, 108] ∧
    to_vec 30 (.jStruct [([100, 101, 115, 99, 114, 105, 112, 116, 105, 111, 110], .jNone)]) =
      Except.ok ([123, 34] ++ [100, 101, 115, 99, 114, 105, 112, 116, 105, 111, 110] ++
        [34, 58, 110, 117, 108, 108, 125]) := by
  have h := option_serialization 30 [] (.jBool true)
    [100, 101, 115, 99, 114, 105, 112, 116, 105, 111, 110] (by simp) (by simp)
  exact ⟨h.1, by simpa using h.2.1, h.2.2⟩

/-- C10: the string entry point agrees with the byte entry point at every
value and capacity: to_string is to_vec followed by the unchecked UTF-8
conversion of the same buffer, which keeps the bytes unchanged, so both
fail with the same error or succeed with the same bytes. -/
theorem to_string_agrees_with_to_vec (cap : Nat) (v : JsonValue) :
    to_string cap v = to_vec cap v := by
  cases h : serializeValue cap [] v <;> simp [to_string, to_vec, h]

instance {ε α : Type} [DecidableEq ε] [DecidableEq α] : DecidableEq (Except ε α) := fun x y =>
  match x, y with
  | .ok a, .ok b =>
      if h : a = b then isTrue (by rw [h]) else isFalse (by intro hc; cases hc; exact h rfl)
  | .error e, .error f =>
      if h : e = f then isTrue (by rw [h]) else isFalse (by intro hc; cases hc; exact h rfl)
  | .ok _, .error _ => isFalse (by intro hc; cases hc)
  | .error _, .ok _ => isFalse (by intro hc; cases hc)

lemma intercalate_cons_flatten (sep x : List Nat) (l : List (List Nat)) :
    List.intercalate sep (x :: l) = x ++ (l.map (fun y => sep ++ y)).flatten := by
  induction l generalizing x with
  | nil => simp [List.intercalate]
  | cons y l ih =>
    rw [List.intercalate, List.intersperse_cons_cons, List.flatten_cons, List.flatten_cons]
    rw [show (List.intersperse sep (y :: l)).flatten = List.intercalate sep (y :: l) from rfl]
    rw [ih y]
    simp [List.append_assoc]

lemma encodeSeqTail_false_eq (es : List JsonValue) :
    encodeSeqTail false es = (es.map (fun e => 44 :: encode e)).flatten ++ [93] := by
  induction es with
  | nil => simp [encodeSeqTail]
  | cons e es ih =>
    simp [encodeSeqTail, ih, List.append_assoc]

/-- The element loop output is the comma-intercalated element encodings
followed by the closing bracket. -/
lemma encodeSeqTail_true_eq (es : List JsonValue) :
    encodeSeqTail true es = List.intercalate [44] (es.map encode) ++ [93] := by
  cases es with
  | nil => simp [encodeSeqTail, List.intercalate]
  | cons e es =>
    simp only [List.map_cons]
    rw [intercalate_cons_flatten]
    simp [encodeSeqTail, encodeSeqTail_false_eq, List.append_assoc, List.map_map, Function.comp]
    rfl

lemma encodeStructTail_false_eq (fs : List (List Nat × JsonValue)) :
    encodeStructTail false fs =
      (fs.map (fun p => 44 :: 34 :: (p.1 ++ 34 :: 58 :: encode p.2))).flatten ++ [125] := by
  induction fs with
  | nil => simp [encodeStructTail]
  | cons f fs ih =>
    obtain ⟨n, v⟩ := f
    simp [encodeStructTail, ih, List.append_assoc]

/-- The field loop output is the comma-intercalated quoted-name colon
value encodings followed by the closing brace. -/
lemma encodeStructTail_true_eq (fs : List (List Nat × JsonValue)) :
    encodeStructTail true fs =
      List.intercalate [44] (fs.map (fun p => 34 :: (p.1 ++ 34 :: 58 :: encode p.2))) ++ [125] := by
  cases fs with
  | nil => simp [encodeStructTail, List.intercalate]
  | cons f fs =>
    obtain ⟨n, v⟩ := f
    simp only [List.map_cons]
    rw [intercalate_cons_flatten]
    simp [encodeStructTail, encodeStructTail_false_eq, List.append_assoc, List.map_map,
      Function.comp]
    rfl

/-- C7: a sequence of elements serializes to the opening bracket (91,
written by the Serializer before the element encoder is constructed), the
element encodings in call order separated by exactly one comma (44) before
every element except the first, and the closing bracket (93) written by
the finishing call; zero elements produce exactly the two bracket
bytes. -/
theorem seq_serialization_brackets (cap : Nat) (es : List JsonValue)
    (hf : floatsFitList es = true)
    (hcap : 2 + (List.intercalate [44] (es.map encode)).length ≤ cap) :
    to_vec cap (.jSeq es) =
      Except.ok (91 :: (List.intercalate [44] (es.map encode) ++ [93])) := by
  have hf2 : floatsFit (.jSeq es) = true := by simp [floatsFit, hf]
  have h := serializeValue_emits cap (.jSeq es) hf2 [] (by simp)
  have henc : encode (.jSeq es) = 91 :: (List.intercalate [44] (es.map encode) ++ [93]) := by
    simp only [encode]
    rw [encodeSeqTail_true_eq]
  rw [henc] at h
  rw [if_pos (by
    simp only [List.length_nil, Nat.zero_add, List.length_cons, List.length_append]
    omega)] at h
  simpa [to_vec] using h

/-- C7 witness: the sequence 0, 1, 2 of 8-bit unsigned values serializes
to the bracketed comma-separated digits, and the empty sequence to the two
bracket bytes. -/
theorem seq_serialization_brackets_witness :
    to_vec 16 (.jSeq [.jU8 0, .jU8 1, .jU8 2]) = Except.ok [91, 48, 44, 49, 44, 50, 93] ∧
    to_vec 2 (.jSeq []) = Except.ok [91, 93] := by
  have e0 : encode (.jU8 0) = [48] := by simp [encode, digitLoop]
  have e1 : encode (.jU8 1) = [49] := by simp [encode, digitLoop]
  have e2 : encode (.jU8 2) = [50] := by simp [encode, digitLoop]
  constructor
  · have h := seq_serialization_brackets 16 [.jU8 0, .jU8 1, .jU8 2]
      (by simp [floatsFitList, floatsFit])
      (by simp only [List.map_cons, List.map_nil, e0, e1, e2]; decide)
    simp only [List.map_cons, List.map_nil, e0, e1, e2] at h
    rw [h]
    decide
  · have h := seq_serialization_brackets 2 []
      (by simp [floatsFitList]) (by decide)
    rw [h]
    decide

/-- C8: a struct serializes to the opening brace (123, written by the
Serializer before the field encoder is constructed), then for each field
in call order, separated by exactly one comma (44) before every field
except the first, the field name as a plain unescaped quoted string, a
colon (58) and the field value encoding, and the closing brace (125)
written by the finishing call; zero fields produce exactly the two brace
bytes. -/
theorem struct_serialization_braces (cap : Nat) (fs : List (List Nat × JsonValue))
    (hf : floatsFitFields fs = true)
    (hcap : 2 + (List.intercalate [44]
      (fs.map (fun p => 34 :: (p.1 ++ 34 :: 58 :: encode p.2)))).length ≤ cap) :
    to_vec cap (.jStruct fs) =
      Except.ok (123 :: (List.intercalate [44]
        (fs.map (fun p => 34 :: (p.1 ++ 34 :: 58 :: encode p.2))) ++ [125])) := by
  have hf2 : floatsFit (.jStruct fs) = true := by simp [floatsFit, hf]
  have h := serializeValue_emits cap (.jStruct fs) hf2 [] (by simp)
  have henc : encode (.jStruct fs) = 123 :: (List.intercalate [44]
      (fs.map (fun p => 34 :: (p.1 ++ 34 :: 58 :: encode p.2))) ++ [125]) := by
    simp only [encode]
    rw [encodeStructTail_true_eq]
  rw [henc] at h
  rw [if_pos (by
    simp only [List.length_nil, Nat.zero_add, List.length_cons, List.length_append]
    omega)] at h
  simpa [to_vec] using h

/-- C8 witness: the empty struct serializes to the two brace bytes, and a
struct with the single boolean field led to the quoted name, colon and
literal inside braces. -/
theorem struct_serialization_braces_witness :
    to_vec 2 (.jStruct []) = Except.ok [123, 125] ∧
    to_vec 16 (.jStruct [([108, 101, 100], .jBool true)]) =
      Except.ok [123, 34, 108, 101, 100, 34, 58, 116, 114, 117, 101, 125] := by
  have eb : encode (.jBool true) = [116, 114, 117, 101] := by simp [encode]
  constructor
  · have h := struct_serialization_braces 2 [] (by simp [floatsFitFields]) (by decide)
    rw [h]
    decide
  · have h := struct_serialization_braces 16 [([108, 101, 100], .jBool true)]
      (by simp [floatsFitFields, floatsFit])
      (by simp only [List.map_cons, List.map_nil, eb]; decide)
    simp only [List.map_cons, List.map_nil, eb] at h
    rw [h]
    decide

/-- A UTF-8 continuation byte: high bits 10. -/
def isCont (b : Nat) : Bool := 128 ≤ b && b ≤ 191

/-- Standard UTF-8 validity of a byte sequence: it decomposes into
well-formed scalar encodings (ASCII, and 2, 3, 4 byte sequences with the
usual lead byte ranges, which exclude overlong forms, surrogates and
values beyond the last plane). -/
inductive Utf8Valid : List Nat → Prop where
  | nil : Utf8Valid []
  | ascii {b0 : Nat} {r : List Nat} :
      b0 ≤ 127 → Utf8Valid r → Utf8Valid (b0 :: r)
  | two {b0 b1 : Nat} {r : List Nat} :
      194 ≤ b0 → b0 ≤ 223 → isCont b1 = true → Utf8Valid r → Utf8Valid (b0 :: b1 :: r)
  | threeE0 {b1 b2 : Nat} {r : List Nat} :
      160 ≤ b1 → b1 ≤ 191 → isCont b2 = true → Utf8Valid r →
      Utf8Valid (224 :: b1 :: b2 :: r)
  | threeMid {b0 b1 b2 : Nat} {r : List Nat} :
      (225 ≤ b0 ∧ b0 ≤ 236) ∨ b0 = 238 ∨ b0 = 239 →
      isCont b1 = true → isCont b2 = true → Utf8Valid r →
      Utf8Valid (b0 :: b1 :: b2 :: r)
  | threeED {b1 b2 : Nat} {r : List Nat} :
      128 ≤ b1 → b1 ≤ 159 → isCont b2 = true → Utf8Valid r →
      Utf8Valid (237 :: b1 :: b2 :: r)
  | fourF0 {b1 b2 b3 : Nat} {r : List Nat} :
      144 ≤ b1 → b1 ≤ 191 → isCont b2 = true → isCont b3 = true → Utf8Valid r →
      Utf8Valid (240 :: b1 :: b2 :: b3 :: r)
  | fourMid {b0 b1 b2 b3 : Nat} {r : List Nat} :
      241 ≤ b0 → b0 ≤ 243 → isCont b1 = true → isCont b2 = true → isCont b3 = true →
      Utf8Valid r → Utf8Valid (b0 :: b1 :: b2 :: b3 :: r)
  | fourF4 {b1 b2 b3 : Nat} {r : List Nat} :
      128 ≤ b1 → b1 ≤ 143 → isCont b2 = true → isCont b3 = true → Utf8Valid r →
      Utf8Valid (244 :: b1 :: b2 :: b3 :: r)

/-- Concatenating two valid UTF-8 sequences yields a valid sequence. -/
theorem utf8Valid_append {a b : List Nat} (ha : Utf8Valid a) (hb : Utf8Valid b) :
    Utf8Valid (a ++ b) := by
  induction ha with
  | nil => simpa using hb
  | ascii h _ ih => exact .ascii h ih
  | two h1 h2 h3 _ ih => exact .two h1 h2 h3 ih
  | threeE0 h1 h2 h3 _ ih => exact .threeE0 h1 h2 h3 ih
  | threeMid h1 h2 h3 _ ih => exact .threeMid h1 h2 h3 ih
  | threeED h1 h2 h3 _ ih => exact .threeED h1 h2 h3 ih
  | fourF0 h1 h2 h3 h4 _ ih => exact .fourF0 h1 h2 h3 h4 ih
  | fourMid h1 h2 h3 h4 h5 _ ih => exact .fourMid h1 h2 h3 h4 h5 ih
  | fourF4 h1 h2 h3 h4 _ ih => exact .fourF4 h1 h2 h3 h4 ih

/-- A sequence of ASCII bytes is valid UTF-8. -/
theorem utf8Valid_ascii (l : List Nat) (h : ∀ b ∈ l, b ≤ 127) : Utf8Valid l := by
  induction l with
  | nil => exact .nil
  | cons b l ih =>
    exact .ascii (h b (by simp)) (ih fun x hx => h x (List.mem_cons_of_mem _ hx))

lemma utf8Valid_digitLoop (v : Nat) : Utf8Valid (digitLoop v) :=
  utf8Valid_ascii _ fun d hd => by have := digitLoop_mem v d hd; omega

lemma utf8Valid_signedBytes (w : Nat) (v : Int) : Utf8Valid (signedBytes w v) := by
  rw [signedBytes_eq]
  by_cases hneg : v < 0
  · rw [if_pos hneg]
    apply utf8Valid_ascii
    intro d hd
    rcases List.mem_cons.mp hd with h1 | h1
    · omega
    · have := digitLoop_mem _ d h1
      omega
  · rw [if_neg hneg]
    exact utf8Valid_digitLoop _

mutual

/-- Every byte list carried inside the value (string bytes, char UTF-8
bytes, variant labels, field names and float texts) is valid UTF-8, as
the Rust type system guarantees for str, char and the formatter output. -/
def utf8Inputs : JsonValue → Prop
  | .jF32 s => Utf8Valid s
  | .jF64 s => Utf8Valid s
  | .jChar u => Utf8Valid u
  | .jStr s => Utf8Valid s
  | .jUnitVariant l => Utf8Valid l
  | .jSome v => utf8Inputs v
  | .jSeq es => utf8InputsList es
  | .jStruct fs => utf8InputsFields fs
  | _ => True

/-- utf8Inputs over every element of a sequence. -/
def utf8InputsList : List JsonValue → Prop
  | [] => True
  | e :: es => utf8Inputs e ∧ utf8InputsList es

/-- utf8Inputs over every field of a struct, names included. -/
def utf8InputsFields : List (List Nat × JsonValue) → Prop
  | [] => True
  | (n, v) :: fs => Utf8Valid n ∧ (utf8Inputs v ∧ utf8InputsFields fs)

end

lemma bind_ok {α β : Type} {x : Except Error α} {f : α → Except Error β} {b : β}
    (h : (x >>= f) = Except.ok b) : ∃ a, x = Except.ok a ∧ f a = Except.ok b := by
  cases x with
  | ok a => exact ⟨a, rfl, h⟩
  | error e => exact Except.noConfusion h

lemma push_ok {cap : Nat} {buf : List Nat} {b : Nat} {r : List Nat}
    (h : push cap buf b = Except.ok r) : r = buf ++ [b] := by
  rw [push] at h
  split at h
  · exact (Except.ok.inj h).symm
  · exact Except.noConfusion h

lemma extend_ok {cap : Nat} {buf bs r : List Nat}
    (h : extend_from_slice cap buf bs = Except.ok r) : r = buf ++ bs := by
  rw [extend_from_slice] at h
  split at h
  · exact (Except.ok.inj h).symm
  · exact Except.noConfusion h

lemma serialize_str_ok {cap : Nat} {buf s r : List Nat}
    (h : serialize_str cap buf s = Except.ok r) : r = buf ++ 34 :: (s ++ [34]) := by
  rw [serialize_str] at h
  obtain ⟨b1, h1, h⟩ := bind_ok h
  obtain ⟨b2, h2, h⟩ := bind_ok h
  rw [push_ok h, extend_ok h2, push_ok h1]
  simp

lemma serialize_float_ok {cap N : Nat} {buf s r : List Nat}
    (h : serialize_float cap N buf s = Except.ok r) : r = buf ++ s := by
  rw [serialize_float] at h
  split at h
  · exact extend_ok h
  · exact Except.noConfusion h

mutual

/-- Every successful serialization extends a valid UTF-8 buffer into a
valid UTF-8 buffer, provided the byte lists carried by the value are valid
UTF-8: each write path appends either ASCII literal bytes, decimal digit
bytes, or input bytes that are themselves valid UTF-8. -/
theorem serializeValue_utf8 (cap : Nat) (v : JsonValue) (buf out : List Nat)
    (h : serializeValue cap buf v = Except.ok out) (hb : Utf8Valid buf)
    (hu : utf8Inputs v) : Utf8Valid out := by
  cases v with
  | jBool b =>
    cases b
    · rw [show serializeValue cap buf (.jBool false) =
          extend_from_slice cap buf [102, 97, 108, 115, 101] from by
        simp [serializeValue, serialize_bool]] at h
      rw [extend_ok h]
      exact utf8Valid_append hb (utf8Valid_ascii _ (by decide))
    · rw [show serializeValue cap buf (.jBool true) =
          extend_from_slice cap buf [116, 114, 117, 101] from by
        simp [serializeValue, serialize_bool]] at h
      rw [extend_ok h]
      exact utf8Valid_append hb (utf8Valid_ascii _ (by decide))
  | jI8 v =>
    simp only [serializeValue, serialize_i8, serialize_signed] at h
    rw [extend_ok h]
    exact utf8Valid_append hb (utf8Valid_signedBytes 8 v)
  | jI16 v =>
    simp only [serializeValue, serialize_i16, serialize_signed] at h
    rw [extend_ok h]
    exact utf8Valid_append hb (utf8Valid_signedBytes 16 v)
  | jI32 v =>
    simp only [serializeValue, serialize_i32, serialize_signed] at h
    rw [extend_ok h]
    exact utf8Valid_append hb (utf8Valid_signedBytes 32 v)
  | jI64 v =>
    simp only [serializeValue, serialize_i64, serialize_signed] at h
    rw [extend_ok h]
    exact utf8Valid_append hb (utf8Valid_signedBytes 64 v)
  | jU8 v =>
    simp only [serializeValue, serialize_u8, serialize_unsigned] at h
    rw [extend_ok h]
    exact utf8Valid_append hb (utf8Valid_digitLoop v)
  | jU16 v =>
    simp only [serializeValue, serialize_u16, serialize_unsigned] at h
    rw [extend_ok h]
    exact utf8Valid_append hb (utf8Valid_digitLoop v)
  | jU32 v =>
    simp only [serializeValue, serialize_u32, serialize_unsigned] at h
    rw [extend_ok h]
    exact utf8Valid_append hb (utf8Valid_digitLoop v)
  | jU64 v =>
    simp only [serializeValue, serialize_u64, serialize_unsigned] at h
    rw [extend_ok h]
    exact utf8Valid_append hb (utf8Valid_digitLoop v)
  | jF32 s =>
    simp only [serializeValue] at h
    simp only [utf8Inputs] at hu
    rw [serialize_float_ok h]
    exact utf8Valid_append hb hu
  | jF64 s =>
    simp only [serializeValue] at h
    simp only [utf8Inputs] at hu
    rw [serialize_float_ok h]
    exact utf8Valid_append hb hu
  | jChar u =>
    simp only [serializeValue] at h
    simp only [utf8Inputs] at hu
    rw [serialize_str_ok h]
    have hq : Utf8Valid (34 :: (u ++ [34])) :=
      utf8Valid_append (utf8Valid_ascii [34] (by decide))
        (utf8Valid_append hu (utf8Valid_ascii [34] (by decide)))
    exact utf8Valid_append hb hq
  | jStr s =>
    simp only [serializeValue] at h
    simp only [utf8Inputs] at hu
    rw [serialize_str_ok h]
    have hq : Utf8Valid (34 :: (s ++ [34])) :=
      utf8Valid_append (utf8Valid_ascii [34] (by decide))
        (utf8Valid_append hu (utf8Valid_ascii [34] (by decide)))
    exact utf8Valid_append hb hq
  | jNone =>
    simp only [serializeValue, serialize_none] at h
    rw [extend_ok h]
    exact utf8Valid_append hb (utf8Valid_ascii _ (by decide))
  | jSome v =>
    simp only [serializeValue] at h
    simp only [utf8Inputs] at hu
    exact serializeValue_utf8 cap v buf out h hb hu
  | jUnitVariant l =>
    simp only [serializeValue] at h
    simp only [utf8Inputs] at hu
    rw [serialize_str_ok h]
    have hq : Utf8Valid (34 :: (l ++ [34])) :=
      utf8Valid_append (utf8Valid_ascii [34] (by decide))
        (utf8Valid_append hu (utf8Valid_ascii [34] (by decide)))
    exact utf8Valid_append hb hq
  | jSeq es =>
    simp only [serializeValue] at h
    simp only [utf8Inputs] at hu
    obtain ⟨b1, h1, h2⟩ := bind_ok h
    have hb1 : Utf8Valid b1 := by
      rw [push_ok h1]
      exact utf8Valid_append hb (utf8Valid_ascii [91] (by decide))
    exact serializeSeqElems_utf8 cap true es b1 out h2 hb1 hu
  | jStruct fs =>
    simp only [serializeValue] at h
    simp only [utf8Inputs] at hu
    obtain ⟨b1, h1, h2⟩ := bind_ok h
    have hb1 : Utf8Valid b1 := by
      rw [push_ok h1]
      exact utf8Valid_append hb (utf8Valid_ascii [123] (by decide))
    exact serializeStructFields_utf8 cap true fs b1 out h2 hb1 hu

/-- UTF-8 preservation for the element loop of a sequence. -/
theorem serializeSeqElems_utf8 (cap : Nat) (first : Bool) (es : List JsonValue)
    (buf out : List Nat) (h : serializeSeqElems cap buf first es = Except.ok out)
    (hb : Utf8Valid buf) (hu : utf8InputsList es) : Utf8Valid out := by
  cases es with
  | nil =>
    simp only [serializeSeqElems] at h
    rw [push_ok h]
    exact utf8Valid_append hb (utf8Valid_ascii [93] (by decide))
  | cons e es =>
    simp only [serializeSeqElems] at h
    simp only [utf8InputsList] at hu
    cases first
    · rw [if_neg (by decide)] at h
      obtain ⟨b1, h1, h2⟩ := bind_ok h
      obtain ⟨b2, h3, h4⟩ := bind_ok h2
      have hb1 : Utf8Valid b1 := by
        rw [push_ok h1]
        exact utf8Valid_append hb (utf8Valid_ascii [44] (by decide))
      have hb2 : Utf8Valid b2 := serializeValue_utf8 cap e b1 b2 h3 hb1 hu.1
      exact serializeSeqElems_utf8 cap false es b2 out h4 hb2 hu.2
    · rw [if_pos rfl] at h
      obtain ⟨b1, h1, h2⟩ := bind_ok h
      obtain ⟨b2, h3, h4⟩ := bind_ok h2
      have hb1 : Utf8Valid b1 := by
        rw [← Except.ok.inj h1]
        exact hb
      have hb2 : Utf8Valid b2 := serializeValue_utf8 cap e b1 b2 h3 hb1 hu.1
      exact serializeSeqElems_utf8 cap false es b2 out h4 hb2 hu.2

/-- UTF-8 preservation for the field loop of a struct. -/
theorem serializeStructFields_utf8 (cap : Nat) (first : Bool)
    (fs : List (List Nat × JsonValue)) (buf out : List Nat)
    (h : serializeStructFields cap buf first fs = Except.ok out)
    (hb : Utf8Valid buf) (hu : utf8InputsFields fs) : Utf8Valid out := by
  cases fs with
  | nil =>
    simp only [serializeStructFields] at h
    rw [push_ok h]
    exact utf8Valid_append hb (utf8Valid_ascii [125] (by decide))
  | cons f fs =>
    obtain ⟨n, v⟩ := f
    simp only [serializeStructFields] at h
    simp only [utf8InputsFields] at hu
    cases first
    · rw [if_neg (by decide)] at h
      obtain ⟨b1, h1, h2⟩ := bind_ok h
      obtain ⟨b2, h3, h4⟩ := bind_ok h2
      obtain ⟨b3, h5, h6⟩ := bind_ok h4
      obtain ⟨b4, h7, h8⟩ := bind_ok h6
      have hb1 : Utf8Valid b1 := by
        rw [push_ok h1]
        exact utf8Valid_append hb (utf8Valid_ascii [44] (by decide))
      have hb2 : Utf8Valid b2 := by
        rw [serialize_str_ok h3]
        exact utf8Valid_append hb1
          (utf8Valid_append (utf8Valid_ascii [34] (by decide))
            (utf8Valid_append hu.1 (utf8Valid_ascii [34] (by decide))))
      have hb3 : Utf8Valid b3 := by
        rw [push_ok h5]
        exact utf8Valid_append hb2 (utf8Valid_ascii [58] (by decide))
      have hb4 : Utf8Valid b4 := serializeValue_utf8 cap v b3 b4 h7 hb3 hu.2.1
      exact serializeStructFields_utf8 cap false fs b4 out h8 hb4 hu.2.2
    · rw [if_pos rfl] at h
      obtain ⟨b1, h1, h2⟩ := bind_ok h
      obtain ⟨b2, h3, h4⟩ := bind_ok h2
      obtain ⟨b3, h5, h6⟩ := bind_ok h4
      obtain ⟨b4, h7, h8⟩ := bind_ok h6
      have hb1 : Utf8Valid b1 := by
        rw [← Except.ok.inj h1]
        exact hb
      have hb2 : Utf8Valid b2 := by
        rw [serialize_str_ok h3]
        exact utf8Valid_append hb1
          (utf8Valid_append (utf8Valid_ascii [34] (by decide))
            (utf8Valid_append hu.1 (utf8Valid_ascii [34] (by decide))))
      have hb3 : Utf8Valid b3 := by
        rw [push_ok h5]
        exact utf8Valid_append hb2 (utf8Valid_ascii [58] (by decide))
      have hb4 : Utf8Valid b4 := serializeValue_utf8 cap v b3 b4 h7 hb3 hu.2.1
      exact serializeStructFields_utf8 cap false fs b4 out h8 hb4 hu.2.2

end

/-- C9: every successful run of the string entry point produces valid
UTF-8: each appended byte sequence is either an ASCII literal, decimal
digit bytes, or input bytes that are already valid UTF-8, so the final
buffer contents form a valid UTF-8 string. -/
theorem output_utf8_valid (cap : Nat) (v : JsonValue) (out : List Nat)
    (h : to_string cap v = Except.ok out) (hu : utf8Inputs v) : Utf8Valid out := by
  have h2 : serializeValue cap [] v = Except.ok out := by
    cases hse : serializeValue cap [] v with
    | ok b =>
      simp only [to_string, hse] at h
      exact h
    | error e =>
      simp only [to_string, hse] at h
      exact h
  exact serializeValue_utf8 cap v [] out h2 Utf8Valid.nil hu

/-- C9 witness: the char with UTF-8 encoding 226 157 164 (a three byte
scalar) serializes to a quoted string whose bytes are valid UTF-8. -/
theorem output_utf8_valid_witness : Utf8Valid [34, 226, 157, 164, 34] := by
  have h : to_string 5 (.jChar [226, 157, 164]) = Except.ok [34, 226, 157, 164, 34] := by
    simp [to_string, serializeValue, serialize_str, push, extend_from_slice,
      Bind.bind, Except.bind]
  exact output_utf8_valid 5 (.jChar [226, 157, 164]) [34, 226, 157, 164, 34] h
    (by
      show Utf8Valid [226, 157, 164]
      exact .threeMid (Or.inl (by omega)) (by decide) (by decide) .nil)
